import Mathlib

/-!
# maido-admin-cli: the `refresh` command

A shallow embedding of `cmd/refresh/command.go`: the chunker
(`generatePutRequestInput`, `generateBatchWriteItemInputs`), the writer
(`writeItems`) and the orchestrator (`orchestrateWriteItems`), followed by the
properties established about them.

Conventions of the embedding.
* A Go `map[string]V` is an `Option (List (String × V))`: `none` is the nil map,
  `some l` an allocated map with the entries `l`.
* A Go pointer to a freshly allocated struct is an index into an explicit heap
  (a list of the allocated structs, in allocation order).
* A Go `error` value is its message; `nil` is `none`.
* The DynamoDB client and `attributevalue.MarshalMap` are library code; they are
  parameters of the definitions that call them.
-/

namespace Maido

/-! ## Data model -/

/-- The Go struct `item` (field `Type` is spelled `Type_`). -/
structure item where
  Type_ : String
  Name : String
  Action : String
  Listed : Bool
  Description : String
  Price : String
deriving DecidableEq, Repr

/-- The Go struct `items`. -/
structure items where
  Items : List item
deriving DecidableEq, Repr

/-- The attribute values that the fields of `item` marshal to. -/
inductive AttributeValue where
  | S (v : String)
  | BOOL (v : Bool)
deriving DecidableEq, Repr

/-- A marshalled record: `map[string]types.AttributeValue`. -/
abbrev AttrMap := List (String × AttributeValue)

/-- The SDK struct `types.PutRequest`. -/
structure PutRequest where
  Item : AttrMap
deriving DecidableEq, Repr

/-- The SDK struct `types.WriteRequest`; `PutRequest` is a pointer. Its other
field, the pointer `DeleteRequest`, is nil in every request this program builds
and is left out. -/
structure WriteRequest where
  PutRequest : Option PutRequest
deriving DecidableEq, Repr

/-- A Go map from table names to write requests; `none` is the nil map. -/
abbrev RequestMap := Option (List (String × List WriteRequest))

/-- The SDK struct `dynamodb.BatchWriteItemInput`. -/
structure BatchWriteItemInput where
  RequestItems : RequestMap
deriving DecidableEq, Repr

/-- The SDK struct `dynamodb.BatchWriteItemOutput`. -/
structure BatchWriteItemOutput where
  UnprocessedItems : RequestMap
deriving DecidableEq, Repr

/-- Go map read `m[k]` with the comma-ok result: `none` when the key is absent
or the map is nil. -/
def mapGet (m : RequestMap) (k : String) : Option (List WriteRequest) :=
  match m with
  | none => none
  | some l => l.lookup k

/-- Assignment `m[k] = v` on the entries of an allocated map. -/
def assocSet (k : String) (v : List WriteRequest) :
    List (String × List WriteRequest) → List (String × List WriteRequest)
  | [] => [(k, v)]
  | (k', v') :: rest => if k' = k then (k, v) :: rest else (k', v') :: assocSet k v rest

/-- The write requests a batch holds under a table name (the nil slice when the
key is absent). -/
def BatchWriteItemInput.requests (b : BatchWriteItemInput) (tableName : String) :
    List WriteRequest :=
  (mapGet b.RequestItems tableName).getD []

/-! ## Chunker -/

/-- The encoding `attributevalue.MarshalMap` gives the struct `item` through its
`dynamodbav` tags; used where a concrete marshaller is needed. -/
def MarshalMap (it : item) : Except String AttrMap :=
  .ok [("PK", .S it.Type_), ("SK", .S it.Name), ("Action", .S it.Action),
       ("Listed", .BOOL it.Listed), ("Description", .S it.Description),
       ("Price", .S it.Price)]

/-- `generatePutRequestInput`: stamp the record with the tag and marshal it.
The result is the Go pair `(map, err)`. -/
def generatePutRequestInput (marshal : item → Except String AttrMap) (it : item) :
    AttrMap × Option String :=
  let it := { it with Type_ := "BLEND" }
  match marshal it with
  | .error err => ([], some err)
  | .ok putItemInput => (putItemInput, none)

/-- The literal `&dynamodb.BatchWriteItemInput{RequestItems: {tableName: {}}}`. -/
def newInput (tableName : String) : BatchWriteItemInput :=
  ⟨some [(tableName, [])]⟩

/-- The statement `input.RequestItems[tableName] = append(input.RequestItems[tableName], r)`.
Every input the chunker touches was built by `newInput`, so its map is allocated. -/
def appendRequest (tableName : String) (r : WriteRequest) (b : BatchWriteItemInput) :
    BatchWriteItemInput :=
  match b.RequestItems with
  | none => b
  | some l => ⟨some (assocSet tableName ((l.lookup tableName).getD [] ++ [r]) l)⟩

/-- Update of the heap cell at address `p`. -/
def modifyAt {α : Type} (f : α → α) : List α → Nat → List α
  | [], _ => []
  | a :: l, 0 => f a :: l
  | a :: l, p + 1 => a :: modifyAt f l p

/-- The variables of `generateBatchWriteItemInputs`: the allocated inputs, the
slice `inputs` of pointers and the pointer `input`. -/
structure GenState where
  heap : List BatchWriteItemInput
  inputs : List Nat
  input : Nat
deriving DecidableEq, Repr

/-- The state before the loop: one allocated input, no sealed batch. -/
def GenState.init (tableName : String) : GenState :=
  { heap := [newInput tableName], inputs := [], input := 0 }

/-- The first half of the loop body: seal the current input when the index says
so, and allocate a new one on a multiple of 25. -/
def sealStep (tableName : String) (len i : Nat) (st : GenState) : GenState :=
  if (i + 1) % 25 = 0 ∨ i + 1 = len then
    let st1 := { st with inputs := st.inputs ++ [st.input] }
    if (i + 1) % 25 = 0 then
      { st1 with heap := st1.heap ++ [newInput tableName], input := st1.heap.length }
    else st1
  else st

/-- The loop `for i, putItem := range items.Items`, from index `i` on. -/
def genLoop (marshal : item → Except String AttrMap) (tableName : String) (len : Nat) :
    Nat → List item → GenState → Except String GenState
  | _, [], st => .ok st
  | i, putItem :: rest, st =>
    let st1 := sealStep tableName len i st
    match generatePutRequestInput marshal putItem with
    | (_, some err) =>
      .error ("error generating batch write item input for " ++ putItem.Name ++ ", " ++ err)
    | (putItemInput, none) =>
      let putItemRequest : WriteRequest := ⟨some ⟨putItemInput⟩⟩
      genLoop marshal tableName len (i + 1) rest
        { st1 with heap := modifyAt (appendRequest tableName putItemRequest) st1.heap st1.input }

/-- The batches a final state returns: the pointers of `inputs`, dereferenced. -/
def GenState.result (st : GenState) : List BatchWriteItemInput :=
  st.inputs.filterMap (fun p => st.heap[p]?)

/-- `generateBatchWriteItemInputs`, as the Go pair `(inputs, err)`. -/
def generateBatchWriteItemInputs (marshal : item → Except String AttrMap) (its : items)
    (tableName : String) : List BatchWriteItemInput × Option String :=
  match genLoop marshal tableName its.Items.length 0 its.Items (GenState.init tableName) with
  | .error err => ([], some err)
  | .ok st => (st.result, none)

/-- The put-request the chunker builds for a record whose marshalling is `m`. -/
def putRequestOf (m : AttrMap) : WriteRequest := ⟨some ⟨m⟩⟩

/-- A catalogue of `n` records named `r0`, `r1`, ... with an arbitrary tag. -/
def sampleItems (n : Nat) : items :=
  ⟨(List.range n).map (fun k =>
    { Type_ := "TEA", Name := "r" ++ toString k, Action := "a", Listed := true,
      Description := "d", Price := "1" })⟩

/-! ## Chunker: the sealed batches as lists

The heap state of the loop is represented by the lists of requests of the
sealed inputs, those of the current input, and a flag telling whether the
current input has been appended to `inputs` too. -/

/-- An input holding the requests `rs` under `tableName`. -/
def mkBatch (tableName : String) (rs : List WriteRequest) : BatchWriteItemInput :=
  ⟨some [(tableName, rs)]⟩

/-- The loop of the chunker on the list representation. -/
def chunkLoop (len : Nat) :
    Nat → List WriteRequest → List (List WriteRequest) × List WriteRequest × Bool →
      List (List WriteRequest) × List WriteRequest × Bool
  | _, [], g => g
  | i, x :: rest, (s, c, f) =>
    if (i + 1) % 25 = 0 then chunkLoop len (i + 1) rest (s ++ [c], [x], false)
    else if i + 1 = len then chunkLoop len (i + 1) rest (s, c ++ [x], true)
    else chunkLoop len (i + 1) rest (s, c ++ [x], f)

/-- The batches returned for the requests `xs`, as lists of requests. -/
def chunks (xs : List WriteRequest) : List (List WriteRequest) :=
  let g := chunkLoop xs.length 0 xs ([], [], false)
  g.1 ++ (if g.2.2 then [g.2.1] else [])

/-- The heap state `st` holds the sealed batches `s` and the current batch `c`. -/
def Rep (tableName : String) (st : GenState) (s : List (List WriteRequest))
    (c : List WriteRequest) (f : Bool) : Prop :=
  st.heap = (s ++ [c]).map (mkBatch tableName) ∧ st.input = s.length ∧
    st.inputs = List.range s.length ++ (if f then [s.length] else [])

/-- The put-request the chunker builds for a record. -/
def requestOf (marshal : item → Except String AttrMap) (it : item) : WriteRequest :=
  putRequestOf (generatePutRequestInput marshal it).1

/-! ## Writer and orchestrator

The goroutines started by `orchestrateWriteItems` run interleaved; a schedule
(a list of writer numbers) says which writer moves next. A move of a writer is
one of its steps that touch shared state: a request to the store, or the send
on the result channel.

A writer that panics runs its deferred `wg.Done()` (line 162) and moves no
more; the runtime then exits the process. Until it does, the other goroutines
go on: the other writers move, and `wg.Wait()` may let the orchestrator
through. -/

/-- The Go pair `(*dynamodb.BatchWriteItemOutput, error)` returned by
`client.BatchWriteItem`; the first component is a pointer and may be nil. -/
abbrev Response := Option BatchWriteItemOutput × Option String

/-- The DynamoDB client, as a state machine over its state `σ`. -/
structure Client (σ : Type) where
  BatchWriteItem : σ → BatchWriteItemInput → σ × Response

/-- The Go struct `writeErrorChannel`. -/
structure writeErrorChannel where
  Error : String
deriving DecidableEq, Repr

/-- The control point of a `writeItems` goroutine. -/
inductive Writer where
  /-- Before the first `client.BatchWriteItem` call. -/
  | start (input : BatchWriteItemInput)
  /-- At `ch <- res`, the send not yet done. -/
  | sending (res : writeErrorChannel)
  /-- At the top of the `for` loop, holding the last response. -/
  | retry (resp : BatchWriteItemOutput)
  /-- Returned; the deferred `wg.Done()` has run. -/
  | done
  /-- Stopped by a nil pointer dereference of `resp`; the deferred `wg.Done()`
  has run. -/
  | panicked
deriving DecidableEq, Repr

/-- Whether the goroutine has returned. -/
def Writer.isDone : Writer → Bool
  | .done => true
  | _ => false

/-- Whether the goroutine has panicked. -/
def Writer.isPanicked : Writer → Bool
  | .panicked => true
  | _ => false

/-- Whether the goroutine has called `wg.Done()`: it has returned, or it has
panicked, the call being deferred (line 162). -/
def Writer.calledDone : Writer → Bool
  | .done => true
  | .panicked => true
  | _ => false

/-- What a run leaves behind: requests with their responses, sends on the result
channel, and log lines, each with the number of the writer (the orchestrator
logs under the number of writers). -/
inductive Event where
  | request (writer : Nat) (input : BatchWriteItemInput) (resp : Response)
  | send (writer : Nat) (res : writeErrorChannel)
  | log (writer : Nat) (line : String)
deriving DecidableEq, Repr

/-- The shared state of a run: the store, the goroutines, the buffered channel
`writeChan` with its capacity, and the events so far. -/
structure World (σ : Type) where
  store : σ
  writers : List Writer
  writeChan : List writeErrorChannel
  capacity : Nat
  trace : List Event

/-- The control point after the first response (lines 164 to 170). -/
def afterFirst (tableName : String) : Response → Writer
  | (_, some err) => .sending ⟨err⟩
  | (none, none) => .panicked
  | (some resp, none) =>
    match mapGet resp.UnprocessedItems tableName with
    | some _ => .retry resp
    | none => .done

/-- The control point after the response to a retry (lines 177 to 182). -/
def afterRetry : Response → Writer
  | (none, _) => .panicked
  | (some resp, _) =>
    match resp.UnprocessedItems with
    | none => .done
    | some _ => .retry resp

/-- The log line of a retry whose request failed (line 178). -/
def retryErrorLog (i : Nat) : Option String → List Event
  | some err => [.log i ("Error while processing unprocessed items " ++ err)]
  | none => []

/-- One move of writer `i`. A send on a full channel blocks; a writer that has
returned or panicked moves no more, whatever the other writers have done. -/
def step {σ : Type} (client : Client σ) (tableName : String) (i : Nat) (w : World σ) :
    World σ :=
  match w.writers[i]? with
  | none => w
  | some (.start input) =>
    let r := client.BatchWriteItem w.store input
    { w with
      store := r.1,
      writers := w.writers.set i (afterFirst tableName r.2),
      trace := w.trace ++ [.request i input r.2] }
  | some (.sending res) =>
    if w.writeChan.length < w.capacity then
      { w with
        writeChan := w.writeChan ++ [res],
        writers := w.writers.set i .done,
        trace := w.trace ++ [.send i res] }
    else w
  | some (.retry resp) =>
    let input : BatchWriteItemInput := ⟨resp.UnprocessedItems⟩
    let r := client.BatchWriteItem w.store input
    { w with
      store := r.1,
      writers := w.writers.set i (afterRetry r.2),
      trace := w.trace ++ ([.log i "Unprocessed items remain. Processing...",
        .request i input r.2] ++ retryErrorLog i r.2.2) }
  | some .done => w
  | some .panicked => w

/-- The moves of a schedule, in order. -/
def run {σ : Type} (client : Client σ) (tableName : String) : List Nat → World σ → World σ
  | [], w => w
  | i :: sched, w => run client tableName sched (step client tableName i w)

/-- The state after `go writeItems(...)` has been issued for every input: the
channel is empty and has room for one message per input. -/
def World.init {σ : Type} (s0 : σ) (inputs : List BatchWriteItemInput) : World σ :=
  { store := s0, writers := inputs.map Writer.start, writeChan := [],
    capacity := inputs.length, trace := [] }

/-- How a call stands once the moves of a schedule are made. -/
inductive Outcome where
  /-- No writer has panicked and every writer has returned: `wg.Wait()` lets the
  call through and it returns `err`. -/
  | returned (err : Option String)
  /-- Some writer has panicked, so the runtime is exiting the process. `ret` says
  what the call does if it runs before the exit: with `some err`, every writer
  has called `wg.Done()`, `wg.Wait()` lets the call through and it returns
  `err`; with `none`, `wg.Wait()` still blocks. -/
  | panic (ret : Option (Option String))
  /-- No writer has panicked and some writer is still running: `wg.Wait()`
  blocks. -/
  | waiting
deriving DecidableEq, Repr

/-- The part of `orchestrateWriteItems` after `wg.Wait()` (lines 151 to 158): it
logs every message of the channel if there is one and returns the summary
error, else nil. `n` is the number under which the orchestrator logs. -/
def afterWait {σ : Type} (n : Nat) (w : World σ) : Option String × World σ :=
  if w.writeChan.length > 0 then
    let logs : List Event := w.writeChan.map
      (fun err => Event.log n ("Error writing objects " ++ err.Error))
    (some "error writing objects", { w with trace := w.trace ++ logs })
  else (none, w)

/-- `orchestrateWriteItems` under a schedule of its writers: how the call
stands after the moves of the schedule, and the state (with the orchestrator's
log lines when `wg.Wait()` lets it through). `wg.Wait()` returns once every
writer has called `wg.Done()`, by returning or, deferred, by panicking. -/
def orchestrateWriteItems {σ : Type} (client : Client σ) (s0 : σ)
    (inputs : List BatchWriteItemInput) (tableName : String) (sched : List Nat) :
    Outcome × World σ :=
  let w := run client tableName sched (World.init s0 inputs)
  if w.writers.all Writer.calledDone then
    let r := afterWait inputs.length w
    if w.writers.any Writer.isPanicked then (.panic (some r.1), r.2)
    else (.returned r.1, r.2)
  else if w.writers.any Writer.isPanicked then (.panic none, w)
  else (.waiting, w)

/-- A single `writeItems` goroutine given `fuel` moves, on a channel holding
`ch` with the given capacity. -/
def writeItems {σ : Type} (client : Client σ) (tableName : String)
    (input : BatchWriteItemInput) (s0 : σ) (ch : List writeErrorChannel) (capacity : Nat)
    (fuel : Nat) : World σ :=
  run client tableName (List.replicate fuel 0)
    { store := s0, writers := [.start input], writeChan := ch, capacity := capacity,
      trace := [] }

/-- The requests of writer `i` in a trace, in order. -/
def requestsOf (i : Nat) (tr : List Event) : List BatchWriteItemInput :=
  tr.filterMap (fun e => match e with
    | .request j input _ => if j = i then some input else none
    | _ => none)

/-- The error components of the responses to writer `i`, in order. -/
def errorsOf (i : Nat) (tr : List Event) : List (Option String) :=
  tr.filterMap (fun e => match e with
    | .request j _ resp => if j = i then some resp.2 else none
    | _ => none)

/-- The messages writer `i` delivered to the result channel. -/
def sentBy (i : Nat) (tr : List Event) : List writeErrorChannel :=
  tr.filterMap (fun e => match e with
    | .send j res => if j = i then some res else none
    | _ => none)

/-- All messages delivered to the result channel, in order. -/
def sentAll (tr : List Event) : List writeErrorChannel :=
  tr.filterMap (fun e => match e with
    | .send _ res => some res
    | _ => none)

/-- The writer an event belongs to. -/
def Event.writer : Event → Nat
  | .request i _ _ => i
  | .send i _ => i
  | .log i _ => i

/-- A store that answers its requests from a fixed list of responses, whoever
asks; its state is the list of responses left. Past the list it reports
success with nothing unprocessed. -/
def scriptedClient : Client (List Response) where
  BatchWriteItem := fun s _ =>
    match s with
    | [] => ([], (some ⟨none⟩, none))
    | r :: rest => (rest, r)

/-- A put-request used in the worked examples. -/
def sampleRequest : WriteRequest :=
  ⟨some ⟨[("PK", .S "BLEND"), ("SK", .S "r0")]⟩⟩

/-- A response without error whose unprocessed map is `m`. -/
def okResponse (m : RequestMap) : Response := (some ⟨m⟩, none)

/-- Responses of a store that leaves one item unprocessed, then answers with an
allocated map without entries, then with the nil map. -/
def emptyMapScript : List Response :=
  [okResponse (some [("t", [sampleRequest])]), okResponse (some []), okResponse none]

/-- Responses of a store that leaves one item unprocessed, then fails the retry
the way the SDK client does: a nil output and the error. -/
def retryErrorScript : List Response :=
  [okResponse (some [("t", [sampleRequest])]), (none, some "throttled")]

/-- A store without state that, sent the batch `b`, leaves its first `n`
requests unprocessed, and accepts every other request whole. -/
def partialClient (t : String) (b : BatchWriteItemInput) (n : Nat) : Client Unit where
  BatchWriteItem := fun s input =>
    if input = b then (s, okResponse (some [(t, (b.requests t).take n)]))
    else (s, okResponse none)

/-- The batches the chunker returns for 53 records. -/
def batches53 : List BatchWriteItemInput :=
  (generateBatchWriteItemInputs MarshalMap (sampleItems 53) "t").1

/-- The number of writers that have not returned. -/
def running (ws : List Writer) : Nat :=
  ws.countP (fun wr => !wr.isDone)

/-- The moves a writer can make, with the events they leave: the first
request, the send of its error, and a retry. -/
def Trans (tableName : String) (i : Nat) (wr wr' : Writer) (new : List Event) : Prop :=
  (∃ input resp, wr = .start input ∧ wr' = afterFirst tableName resp ∧
    new = [.request i input resp]) ∨
  (∃ res, wr = .sending res ∧ wr' = .done ∧ new = [.send i res]) ∨
  (∃ r resp, wr = .retry r ∧ wr' = afterRetry resp ∧
    new = [.log i "Unprocessed items remain. Processing...",
      .request i ⟨r.UnprocessedItems⟩ resp] ++ retryErrorLog i resp.2)

/-- What the control point of a writer says about its own events: `errs` are
the error components of the responses it got, `sent` the messages it
delivered. -/
def LocalInv : Option Writer → List (Option String) → List writeErrorChannel → Prop
  | none, errs, sent => errs = [] ∧ sent = []
  | some (.start _), errs, sent => errs = [] ∧ sent = []
  | some (.sending res), errs, sent => errs.head? = some (some res.Error) ∧ sent = []
  | some (.retry _), errs, sent => errs.head? = some none ∧ sent = []
  | some .panicked, errs, sent => errs.head? = some none ∧ sent = []
  | some .done, errs, sent =>
    (∃ e, errs.head? = some (some e) ∧ sent = [⟨e⟩]) ∨ (errs.head? = some none ∧ sent = [])

/-- The invariant of a run: the channel holds the messages sent, and every
writer's control point agrees with its events. -/
def WorldInv {σ : Type} (w : World σ) : Prop :=
  w.writeChan = sentAll w.trace ∧
  ∀ k, LocalInv w.writers[k]? (errorsOf k w.trace) (sentBy k w.trace)

/-! # Properties -/

/-! ## Chunker: heap state against list representation -/

theorem mkBatch_requests (t : String) (rs : List WriteRequest) :
    (mkBatch t rs).requests t = rs := by
  simp [mkBatch, BatchWriteItemInput.requests, mapGet, List.lookup]

theorem appendRequest_mkBatch (t : String) (r : WriteRequest) (rs : List WriteRequest) :
    appendRequest t r (mkBatch t rs) = mkBatch t (rs ++ [r]) := by
  simp [mkBatch, appendRequest, assocSet, List.lookup]

theorem modifyAt_append_length {α : Type} (f : α → α) (l : List α) (a : α) :
    modifyAt f (l ++ [a]) l.length = l ++ [f a] := by
  induction l with
  | nil => rfl
  | cons b l ih => simp [modifyAt, ih]

theorem Rep_init (t : String) : Rep t (GenState.init t) [] [] false := by
  simp [Rep, GenState.init, newInput, mkBatch]

theorem filterMap_range_heap {α : Type} (l : List α) :
    ∀ rest : List α, (List.range l.length).filterMap (fun p => (l ++ rest)[p]?) = l := by
  induction l using List.reverseRecOn with
  | nil => intro rest; simp
  | append_singleton l a ih =>
    intro rest
    rw [List.length_append, List.length_singleton, List.range_succ, List.filterMap_append,
      List.append_assoc, ih ([a] ++ rest)]
    have : (l ++ ([a] ++ rest))[l.length]? = some a := by
      rw [List.getElem?_append_right (Nat.le_refl _)]; simp
    simp only [List.filterMap_cons, this, List.filterMap_nil]

theorem Rep_result (t : String) (st : GenState) (s : List (List WriteRequest))
    (c : List WriteRequest) (f : Bool) (h : Rep t st s c f) :
    st.result = (s ++ (if f then [c] else [])).map (mkBatch t) := by
  obtain ⟨hh, _, hi⟩ := h
  have hl : (s.map (mkBatch t)).length = s.length := by simp
  have h1 := filterMap_range_heap (s.map (mkBatch t)) [mkBatch t c]
  rw [hl] at h1
  unfold GenState.result
  rw [hh, hi, List.filterMap_append, List.map_append, List.map_append, List.map_singleton, h1]
  cases f with
  | false => simp
  | true =>
    have : (s.map (mkBatch t) ++ [mkBatch t c])[s.length]? = some (mkBatch t c) := by
      rw [List.getElem?_append_right (by simp)]; simp
    simp [this]

theorem Rep_seal (t : String) (len i : Nat) (st : GenState) (s : List (List WriteRequest))
    (c : List WriteRequest) (hi : (i + 1) % 25 = 0) (h : Rep t st s c false) :
    Rep t (sealStep t len i st) (s ++ [c]) [] false := by
  obtain ⟨hh, hp, hs⟩ := h
  simp only [sealStep, hi, true_or, if_true]
  refine ⟨?_, ?_, ?_⟩
  · simp [hh, newInput, mkBatch]
  · simp [hh]
  · simp [hs, hp, List.range_succ]

theorem Rep_last (t : String) (len i : Nat) (st : GenState) (s : List (List WriteRequest))
    (c : List WriteRequest) (hi : ¬ (i + 1) % 25 = 0) (hl : i + 1 = len)
    (h : Rep t st s c false) : Rep t (sealStep t len i st) s c true := by
  obtain ⟨hh, hp, hs⟩ := h
  subst hl
  simp only [sealStep, hi, or_true, if_true, if_false]
  exact ⟨hh, hp, by simp [hs, hp]⟩

theorem sealStep_skip (t : String) (len i : Nat) (st : GenState)
    (hi : ¬ (i + 1) % 25 = 0) (hl : ¬ i + 1 = len) : sealStep t len i st = st := by
  simp [sealStep, hi, hl]

theorem Rep_append (t : String) (st : GenState) (s : List (List WriteRequest))
    (c : List WriteRequest) (f : Bool) (r : WriteRequest) (h : Rep t st s c f) :
    Rep t { st with heap := modifyAt (appendRequest t r) st.heap st.input } s (c ++ [r]) f := by
  obtain ⟨hh, hp, hs⟩ := h
  refine ⟨?_, hp, hs⟩
  have hl : (s.map (mkBatch t)).length = s.length := by simp
  show modifyAt (appendRequest t r) st.heap st.input = _
  rw [hh, hp, List.map_append, List.map_singleton, ← hl, modifyAt_append_length,
    appendRequest_mkBatch]
  simp

theorem genLoop_sim (marshal : item → Except String AttrMap) (t : String) (len : Nat) :
    ∀ (rest : List item) (i : Nat) (st : GenState) (s : List (List WriteRequest))
      (c : List WriteRequest),
      (∀ it ∈ rest, (generatePutRequestInput marshal it).2 = none) →
      i + rest.length = len → Rep t st s c false →
      ∃ st', genLoop marshal t len i rest st = .ok st' ∧
        Rep t st' (chunkLoop len i (rest.map (requestOf marshal)) (s, c, false)).1
          (chunkLoop len i (rest.map (requestOf marshal)) (s, c, false)).2.1
          (chunkLoop len i (rest.map (requestOf marshal)) (s, c, false)).2.2 := by
  intro rest
  induction rest with
  | nil =>
    intro i st s c _ _ h
    exact ⟨st, rfl, by simpa [chunkLoop] using h⟩
  | cons x rest ih =>
    intro i st s c hm hlen h
    have hx : (generatePutRequestInput marshal x).2 = none := hm x (List.mem_cons_self _ _)
    have hm' : ∀ it ∈ rest, (generatePutRequestInput marshal it).2 = none :=
      fun it hit => hm it (List.mem_cons_of_mem _ hit)
    have hg : generatePutRequestInput marshal x
        = ((generatePutRequestInput marshal x).1, none) := by
      rw [← hx]
    have hr : (⟨some ⟨(generatePutRequestInput marshal x).1⟩⟩ : WriteRequest)
        = requestOf marshal x := rfl
    simp only [List.length_cons] at hlen
    rw [genLoop, hg]
    simp only [List.map_cons, chunkLoop, hr]
    by_cases h25 : (i + 1) % 25 = 0
    · simp only [h25, if_true]
      have h1 := Rep_append t _ _ _ _ (requestOf marshal x) (Rep_seal t len i st s c h25 h)
      simpa using ih (i + 1) _ _ _ hm' (by omega) h1
    · simp only [h25, if_false]
      by_cases hl : i + 1 = len
      · simp only [hl, if_true]
        have h1 := Rep_append t _ _ _ _ (requestOf marshal x) (Rep_last t len i st s c h25 hl h)
        have hnil : rest = [] := by
          apply List.eq_nil_of_length_eq_zero; omega
        subst hnil
        exact ⟨_, rfl, by simpa [chunkLoop] using h1⟩
      · simp only [hl, if_false]
        have h1 := Rep_append t _ _ _ _ (requestOf marshal x) h
        rw [sealStep_skip t len i st h25 hl]
        exact ih (i + 1) _ _ _ hm' (by omega) h1

/-- What the loop on lists has built once it is through: the number of sealed
batches, whether the current batch was returned too, the sizes, and the
requests in order. -/
theorem chunkLoop_inv (len : Nat) :
    ∀ (rest : List WriteRequest) (i : Nat) (s : List (List WriteRequest))
      (c : List WriteRequest),
      i + rest.length = len → s.length = i / 25 →
      c.length = (if i < 25 then i else i % 25 + 1) →
      (∀ b ∈ s, 24 ≤ b.length ∧ b.length ≤ 25) →
      (chunkLoop len i rest (s, c, false)).1.length = len / 25 ∧
      ((chunkLoop len i rest (s, c, false)).2.2 = true ↔ rest ≠ [] ∧ len % 25 ≠ 0) ∧
      (∀ b ∈ (chunkLoop len i rest (s, c, false)).1, 24 ≤ b.length ∧ b.length ≤ 25) ∧
      (chunkLoop len i rest (s, c, false)).2.1.length
        = (if len < 25 then len else len % 25 + 1) ∧
      (chunkLoop len i rest (s, c, false)).1.flatten ++ (chunkLoop len i rest (s, c, false)).2.1
        = s.flatten ++ c ++ rest := by
  intro rest
  induction rest with
  | nil =>
    intro i s c hlen hs hc hb
    simp only [List.length_nil, Nat.add_zero] at hlen
    subst hlen
    simp [chunkLoop, hs, hc]
    exact hb
  | cons x rest ih =>
    intro i s c hlen hs hc hb
    simp only [List.length_cons] at hlen
    simp only [chunkLoop]
    by_cases h25 : (i + 1) % 25 = 0
    · simp only [h25, if_true]
      have hcl : 24 ≤ c.length ∧ c.length ≤ 25 := by
        rw [hc]; split <;> omega
      have := ih (i + 1) (s ++ [c]) [x] (by omega) (by simp [hs]; omega)
        (by simp only [List.length_singleton]; split <;> omega)
        (by
          intro b hb'
          rcases List.mem_append.1 hb' with h | h
          · exact hb b h
          · simp at h; subst h; exact hcl)
      obtain ⟨h1, h2, h3, h4, h5⟩ := this
      refine ⟨h1, ?_, h3, h4, ?_⟩
      · rw [h2]
        constructor
        · intro ⟨_, h⟩; exact ⟨by simp, h⟩
        · intro ⟨_, h⟩
          refine ⟨?_, h⟩
          intro hn; subst hn
          simp at hlen; omega
      · rw [h5]; simp
    · simp only [h25, if_false]
      by_cases hl : i + 1 = len
      · have hnil : rest = [] := by
          apply List.eq_nil_of_length_eq_zero; omega
        subst hnil
        subst hl
        simp only [if_true, chunkLoop, List.length_append, List.length_singleton, hc]
        refine ⟨by omega, by simp [h25], hb, ?_, by simp⟩
        split <;> split <;> omega
      · simp only [hl, if_false]
        have := ih (i + 1) s (c ++ [x]) (by omega) (by omega)
          (by simp only [List.length_append, List.length_singleton, hc]
              split <;> split <;> omega) hb
        obtain ⟨h1, h2, h3, h4, h5⟩ := this
        refine ⟨h1, ?_, h3, h4, ?_⟩
        · rw [h2]
          constructor
          · intro ⟨_, h⟩; exact ⟨by simp, h⟩
          · intro ⟨_, h⟩
            refine ⟨?_, h⟩
            intro hn; subst hn
            simp at hlen; omega
        · rw [h5]; simp

/-! ## Chunker: the batches returned -/

/-- When every record marshals, the chunker returns no error and the batches
are those of the list representation. -/
theorem generate_eq_chunks (marshal : item → Except String AttrMap) (its : items) (t : String)
    (hm : ∀ it ∈ its.Items, (generatePutRequestInput marshal it).2 = none) :
    generateBatchWriteItemInputs marshal its t
      = ((chunks (its.Items.map (requestOf marshal))).map (mkBatch t), none) := by
  obtain ⟨st', h1, h2⟩ := genLoop_sim marshal t its.Items.length its.Items 0
    (GenState.init t) [] [] hm (by simp) (Rep_init t)
  unfold generateBatchWriteItemInputs
  rw [h1]
  simp only
  rw [Rep_result t st' _ _ _ h2]
  simp [chunks]

theorem chunks_length (xs : List WriteRequest) :
    (chunks xs).length = (xs.length + 24) / 25 := by
  obtain ⟨h1, h2, _, _, _⟩ := chunkLoop_inv xs.length xs 0 [] [] (by simp) (by simp)
    (by simp) (by simp)
  unfold chunks
  simp only [List.length_append, h1]
  by_cases hf : (chunkLoop xs.length 0 xs ([], [], false)).2.2 = true
  · have := (h2.1 hf).2
    simp only [hf, if_true, List.length_singleton]
    omega
  · have hn : ¬ (xs ≠ [] ∧ xs.length % 25 ≠ 0) := fun h => hf (h2.2 h)
    have h0 : xs.length % 25 = 0 := by
      by_contra hc
      apply hn
      refine ⟨?_, hc⟩
      intro hx; subst hx; simp at hc
    simp only [hf, Bool.false_eq_true, if_false, List.length_nil]
    omega

theorem chunks_sizes (xs : List WriteRequest) :
    ∀ b ∈ chunks xs, 1 ≤ b.length ∧ b.length ≤ 25 := by
  obtain ⟨_, h2, h3, h4, _⟩ := chunkLoop_inv xs.length xs 0 [] [] (by simp) (by simp)
    (by simp) (by simp)
  intro b hb
  unfold chunks at hb
  rcases List.mem_append.1 hb with h | h
  · have := h3 b h
    omega
  · by_cases hf : (chunkLoop xs.length 0 xs ([], [], false)).2.2 = true
    · simp only [hf, if_true, List.mem_singleton] at h
      subst h
      obtain ⟨hx, h25⟩ := h2.1 hf
      have hpos : 0 < xs.length := List.length_pos.2 hx
      rw [h4]
      split <;> omega
    · simp [hf] at h

theorem chunks_mem (xs : List WriteRequest) :
    ∀ b ∈ chunks xs, ∀ r ∈ b, r ∈ xs := by
  obtain ⟨_, _, _, _, h5⟩ := chunkLoop_inv xs.length xs 0 [] [] (by simp) (by simp)
    (by simp) (by simp)
  simp only [List.flatten_nil, List.nil_append] at h5
  intro b hb r hr
  unfold chunks at hb
  rw [← h5]
  rcases List.mem_append.1 hb with h | h
  · exact List.mem_append_left _ (List.mem_flatten.2 ⟨b, h, hr⟩)
  · by_cases hf : (chunkLoop xs.length 0 xs ([], [], false)).2.2 = true
    · simp only [hf, if_true, List.mem_singleton] at h
      subst h
      exact List.mem_append_right _ hr
    · simp [hf] at h

theorem eq_take_of_append {α : Type} (a b xs : List α) (h : a ++ b = xs) :
    a = xs.take a.length := by
  subst h; simp

/-- When the number of requests is not a multiple of 25 the batches, put end to
end, are the requests. -/
theorem chunks_flatten_of_not_dvd (xs : List WriteRequest) (h : xs.length % 25 ≠ 0) :
    (chunks xs).flatten = xs := by
  obtain ⟨_, h2, _, _, h5⟩ := chunkLoop_inv xs.length xs 0 [] [] (by simp) (by simp)
    (by simp) (by simp)
  have hx : xs ≠ [] := by
    intro hx; subst hx; simp at h
  have hf := h2.2 ⟨hx, h⟩
  simp only [List.flatten_nil, List.nil_append] at h5
  unfold chunks
  simp only [hf, if_true, List.flatten_append, List.flatten_cons, List.flatten_nil,
    List.append_nil]
  exact h5

/-- When the number of requests is a multiple of 25 the batches, put end to
end, are the requests without the last one. -/
theorem chunks_flatten_of_dvd (xs : List WriteRequest) (h : xs.length % 25 = 0) :
    (chunks xs).flatten = xs.take (xs.length - 1) := by
  obtain ⟨_, h2, _, h4, h5⟩ := chunkLoop_inv xs.length xs 0 [] [] (by simp) (by simp)
    (by simp) (by simp)
  have hf : ¬ (chunkLoop xs.length 0 xs ([], [], false)).2.2 = true := by
    intro hf; exact (h2.1 hf).2 h
  simp only [List.flatten_nil, List.nil_append] at h5
  unfold chunks
  simp only [hf, Bool.false_eq_true, if_false, List.append_nil]
  have hlen : (chunkLoop xs.length 0 xs ([], [], false)).1.flatten.length = xs.length - 1 := by
    have := congrArg List.length h5
    rw [List.length_append, h4] at this
    split at this <;> omega
  rw [← hlen]
  exact eq_take_of_append _ _ _ h5

theorem map_requests_mkBatch (t : String) (bs : List (List WriteRequest)) :
    (bs.map (mkBatch t)).map (fun b => b.requests t) = bs := by
  induction bs with
  | nil => rfl
  | cons b bs ih =>
    simp only [List.map_cons, mkBatch_requests, List.cons.injEq, true_and]
    exact ih

/-- For a number of records that is not a multiple of 25, the put-requests of
the returned batches, in order, are those of the records, in order. -/
theorem generate_flatten_of_not_dvd (marshal : item → Except String AttrMap) (its : items)
    (t : String) (hm : ∀ it ∈ its.Items, (generatePutRequestInput marshal it).2 = none)
    (h : its.Items.length % 25 ≠ 0) :
    ((generateBatchWriteItemInputs marshal its t).1.map (fun b => b.requests t)).flatten
      = its.Items.map (requestOf marshal) := by
  rw [generate_eq_chunks marshal its t hm]
  simp only [map_requests_mkBatch]
  exact chunks_flatten_of_not_dvd _ (by simpa using h)

/-- For a number of records that is a multiple of 25, the put-requests of the
returned batches, in order, are those of the records without the last one. -/
theorem generate_flatten_of_dvd (marshal : item → Except String AttrMap) (its : items)
    (t : String) (hm : ∀ it ∈ its.Items, (generatePutRequestInput marshal it).2 = none)
    (h : its.Items.length % 25 = 0) :
    ((generateBatchWriteItemInputs marshal its t).1.map (fun b => b.requests t)).flatten
      = (its.Items.map (requestOf marshal)).take (its.Items.length - 1) := by
  rw [generate_eq_chunks marshal its t hm]
  simp only [map_requests_mkBatch]
  have := chunks_flatten_of_dvd (its.Items.map (requestOf marshal)) (by simpa using h)
  simpa using this

/-! ## Chunker: the claims -/

/-- C1, evaluated on 25 records: the chunker returns one batch whose
put-requests are those of the first 24 records; the put-request of the last
record is in no returned batch, so the batches put end to end are not the
put-requests of the input. -/
theorem generateBatchWriteItemInputs_drops_last_of_25 :
    (generateBatchWriteItemInputs MarshalMap (sampleItems 25) "t").2 = none ∧
    ((generateBatchWriteItemInputs MarshalMap (sampleItems 25) "t").1.map
        (fun b => b.requests "t")).flatten
      = ((sampleItems 25).Items.map (requestOf MarshalMap)).take 24 ∧
    ((generateBatchWriteItemInputs MarshalMap (sampleItems 25) "t").1.map
        (fun b => b.requests "t")).flatten
      ≠ (sampleItems 25).Items.map (requestOf MarshalMap) := by
  set_option maxRecDepth 100000 in decide

/-- C2, evaluated on 26 records: the chunker returns two batches, and the first
one, which is not the last, holds 24 put-requests, not 25. -/
theorem generateBatchWriteItemInputs_first_batch_of_26 :
    (generateBatchWriteItemInputs MarshalMap (sampleItems 26) "t").2 = none ∧
    (generateBatchWriteItemInputs MarshalMap (sampleItems 26) "t").1.map
        (fun b => (b.requests "t").length) = [24, 2] := by
  set_option maxRecDepth 100000 in decide

/-- C3: when every record marshals, the chunker returns no error and `n`
batches with `L ≤ 25 * n < L + 25` for `L` records, that is `n = ceil(L/25)`
(written `(L + 24) / 25` too); for no record it returns no batch. -/
theorem generateBatchWriteItemInputs_count (marshal : item → Except String AttrMap)
    (its : items) (t : String)
    (hm : ∀ it ∈ its.Items, (generatePutRequestInput marshal it).2 = none) :
    (generateBatchWriteItemInputs marshal its t).2 = none ∧
    (generateBatchWriteItemInputs marshal its t).1.length = (its.Items.length + 24) / 25 ∧
    its.Items.length ≤ 25 * (generateBatchWriteItemInputs marshal its t).1.length ∧
    25 * (generateBatchWriteItemInputs marshal its t).1.length < its.Items.length + 25 ∧
    (its.Items.length = 0 → (generateBatchWriteItemInputs marshal its t).1 = []) := by
  rw [generate_eq_chunks marshal its t hm]
  have hl : ((chunks (its.Items.map (requestOf marshal))).map (mkBatch t)).length
      = (its.Items.length + 24) / 25 := by
    simpa using chunks_length (its.Items.map (requestOf marshal))
  refine ⟨rfl, hl, ?_, ?_, ?_⟩
  · show _ ≤ 25 * ((chunks (its.Items.map (requestOf marshal))).map (mkBatch t)).length
    rw [hl]; omega
  · show 25 * ((chunks (its.Items.map (requestOf marshal))).map (mkBatch t)).length < _
    rw [hl]; omega
  · intro h0
    apply List.eq_nil_of_length_eq_zero
    show ((chunks (its.Items.map (requestOf marshal))).map (mkBatch t)).length = 0
    rw [hl, h0]

theorem generateBatchWriteItemInputs_count_witness :
    (∀ it ∈ (sampleItems 3).Items, (generatePutRequestInput MarshalMap it).2 = none) ∧
    ((generateBatchWriteItemInputs MarshalMap (sampleItems 3) "t").2 = none ∧
    (generateBatchWriteItemInputs MarshalMap (sampleItems 3) "t").1.length
      = ((sampleItems 3).Items.length + 24) / 25 ∧
    (sampleItems 3).Items.length
      ≤ 25 * (generateBatchWriteItemInputs MarshalMap (sampleItems 3) "t").1.length ∧
    25 * (generateBatchWriteItemInputs MarshalMap (sampleItems 3) "t").1.length
      < (sampleItems 3).Items.length + 25 ∧
    ((sampleItems 3).Items.length = 0 →
      (generateBatchWriteItemInputs MarshalMap (sampleItems 3) "t").1 = [])) :=
  ⟨fun _ _ => rfl,
    generateBatchWriteItemInputs_count MarshalMap (sampleItems 3) "t" (fun _ _ => rfl)⟩

/-- C4: when every record marshals, the chunker returns no error and every
returned batch holds at least 1 and at most 25 put-requests under the table
name. -/
theorem generateBatchWriteItemInputs_batch_bounds (marshal : item → Except String AttrMap)
    (its : items) (t : String)
    (hm : ∀ it ∈ its.Items, (generatePutRequestInput marshal it).2 = none) :
    (generateBatchWriteItemInputs marshal its t).2 = none ∧
    ∀ b ∈ (generateBatchWriteItemInputs marshal its t).1,
      1 ≤ (b.requests t).length ∧ (b.requests t).length ≤ 25 := by
  rw [generate_eq_chunks marshal its t hm]
  refine ⟨rfl, ?_⟩
  intro b hb
  obtain ⟨rs, hrs, rfl⟩ := List.mem_map.1 hb
  rw [mkBatch_requests]
  exact chunks_sizes _ rs hrs

theorem generateBatchWriteItemInputs_batch_bounds_witness :
    (∀ it ∈ (sampleItems 30).Items, (generatePutRequestInput MarshalMap it).2 = none) ∧
    ((generateBatchWriteItemInputs MarshalMap (sampleItems 30) "t").2 = none ∧
    ∀ b ∈ (generateBatchWriteItemInputs MarshalMap (sampleItems 30) "t").1,
      1 ≤ (b.requests "t").length ∧ (b.requests "t").length ≤ 25) :=
  ⟨fun _ _ => rfl,
    generateBatchWriteItemInputs_batch_bounds MarshalMap (sampleItems 30) "t" (fun _ _ => rfl)⟩

/-- C5: whatever the record's `Type`, `generatePutRequestInput` returns the
marshalling of the record with `Type` set to "BLEND" and the other five fields
as they are (or the marshaller's error); and when every record marshals, every
put-request of every returned batch is the marshalling of an input record so
stamped. Under the `dynamodbav` encoding its `PK` attribute is "BLEND". -/
theorem generatePutRequestInput_tag (marshal : item → Except String AttrMap)
    (its : items) (t : String)
    (hm : ∀ it ∈ its.Items, (generatePutRequestInput marshal it).2 = none) :
    (∀ it : item, generatePutRequestInput marshal it =
      match marshal ⟨"BLEND", it.Name, it.Action, it.Listed, it.Description, it.Price⟩ with
      | .ok m => (m, none)
      | .error e => ([], some e)) ∧
    (∀ b ∈ (generateBatchWriteItemInputs marshal its t).1, ∀ r ∈ b.requests t,
      ∃ it ∈ its.Items, ∃ m,
        marshal ⟨"BLEND", it.Name, it.Action, it.Listed, it.Description, it.Price⟩ = .ok m ∧
        r = ⟨some ⟨m⟩⟩) ∧
    (∀ it : item,
      (generatePutRequestInput MarshalMap it).1.lookup "PK" = some (.S "BLEND")) := by
  have hgen : ∀ it : item, generatePutRequestInput marshal it =
      match marshal ⟨"BLEND", it.Name, it.Action, it.Listed, it.Description, it.Price⟩ with
      | .ok m => (m, none)
      | .error e => ([], some e) := by
    intro it
    unfold generatePutRequestInput
    simp only
    split <;> rename_i h <;> rw [h]
  refine ⟨hgen, ?_, fun it => rfl⟩
  rw [generate_eq_chunks marshal its t hm]
  intro b hb r hr
  obtain ⟨rs, hrs, rfl⟩ := List.mem_map.1 hb
  rw [mkBatch_requests] at hr
  have hmem := chunks_mem _ rs hrs r hr
  obtain ⟨it, hit, rfl⟩ := List.mem_map.1 hmem
  refine ⟨it, hit, (generatePutRequestInput marshal it).1, ?_, rfl⟩
  have h2 := hm it hit
  have h1 := hgen it
  cases hmar : marshal ⟨"BLEND", it.Name, it.Action, it.Listed, it.Description, it.Price⟩ with
  | ok m => rw [hmar] at h1; simp only at h1; rw [h1]
  | error e => rw [hmar] at h1; simp only at h1; rw [h1] at h2; simp at h2

theorem generatePutRequestInput_tag_witness :
    (∀ it ∈ (sampleItems 3).Items, (generatePutRequestInput MarshalMap it).2 = none) ∧
    ((∀ it : item, generatePutRequestInput MarshalMap it =
      match MarshalMap ⟨"BLEND", it.Name, it.Action, it.Listed, it.Description, it.Price⟩ with
      | .ok m => (m, none)
      | .error e => ([], some e)) ∧
    (∀ b ∈ (generateBatchWriteItemInputs MarshalMap (sampleItems 3) "t").1,
      ∀ r ∈ b.requests "t", ∃ it ∈ (sampleItems 3).Items, ∃ m,
        MarshalMap ⟨"BLEND", it.Name, it.Action, it.Listed, it.Description, it.Price⟩
          = .ok m ∧
        r = ⟨some ⟨m⟩⟩) ∧
    (∀ it : item,
      (generatePutRequestInput MarshalMap it).1.lookup "PK" = some (.S "BLEND"))) :=
  ⟨fun _ _ => rfl,
    generatePutRequestInput_tag MarshalMap (sampleItems 3) "t" (fun _ _ => rfl)⟩

/-! ## Writer and orchestrator: moves -/

theorem sentAll_retryErrorLog (i : Nat) (e : Option String) :
    sentAll (retryErrorLog i e) = [] := by
  cases e <;> rfl

theorem sentBy_retryErrorLog (k i : Nat) (e : Option String) :
    sentBy k (retryErrorLog i e) = [] := by
  cases e <;> rfl

theorem errorsOf_retryErrorLog (k i : Nat) (e : Option String) :
    errorsOf k (retryErrorLog i e) = [] := by
  cases e <;> rfl

theorem writer_retryErrorLog (i : Nat) (e : Option String) :
    ∀ ev ∈ retryErrorLog i e, ev.writer = i := by
  cases e <;> simp [retryErrorLog, Event.writer]

/-- A move of writer `i` either changes nothing, or is one of the moves of
`Trans` made by the writer at place `i`. -/
theorem step_spec {σ : Type} (c : Client σ) (t : String) (i : Nat) (w : World σ) :
    step c t i w = w ∨
    ∃ wr wr' new, w.writers[i]? = some wr ∧
      (step c t i w).writers = w.writers.set i wr' ∧
      (step c t i w).trace = w.trace ++ new ∧
      (step c t i w).writeChan = w.writeChan ++ sentAll new ∧
      (step c t i w).capacity = w.capacity ∧
      (∀ ev ∈ new, ev.writer = i) ∧ Trans t i wr wr' new := by
  unfold step
  split
  · exact Or.inl rfl
  · rename_i input heq
    refine Or.inr ⟨_, afterFirst t (c.BatchWriteItem w.store input).2, _, heq, rfl, rfl,
      by simp [sentAll], rfl, by simp [Event.writer], Or.inl ⟨_, _, rfl, rfl, rfl⟩⟩
  · rename_i res heq
    split
    · refine Or.inr ⟨_, .done, _, heq, rfl, rfl, by simp [sentAll], rfl,
        by simp [Event.writer], Or.inr (Or.inl ⟨_, rfl, rfl, rfl⟩)⟩
    · exact Or.inl rfl
  · rename_i resp heq
    refine Or.inr ⟨_, afterRetry (c.BatchWriteItem w.store ⟨resp.UnprocessedItems⟩).2, _,
      heq, rfl, rfl, ?_, rfl, ?_, Or.inr (Or.inr ⟨_, _, rfl, rfl, rfl⟩)⟩
    · show w.writeChan = w.writeChan ++ sentAll (_ ++ retryErrorLog i _)
      unfold sentAll
      rw [List.filterMap_append]
      have := sentAll_retryErrorLog i (c.BatchWriteItem w.store ⟨resp.UnprocessedItems⟩).2.2
      unfold sentAll at this
      rw [this]
      simp
    · intro ev hev
      rcases List.mem_append.1 hev with h | h
      · simp at h
        rcases h with h | h <;> subst h <;> rfl
      · exact writer_retryErrorLog i _ ev h
  · exact Or.inl rfl
  · exact Or.inl rfl

theorem errorsOf_append (k : Nat) (a b : List Event) :
    errorsOf k (a ++ b) = errorsOf k a ++ errorsOf k b := by
  simp [errorsOf, List.filterMap_append]

theorem sentBy_append (k : Nat) (a b : List Event) :
    sentBy k (a ++ b) = sentBy k a ++ sentBy k b := by
  simp [sentBy, List.filterMap_append]

theorem sentAll_append (a b : List Event) : sentAll (a ++ b) = sentAll a ++ sentAll b := by
  simp [sentAll, List.filterMap_append]

theorem requestsOf_append (k : Nat) (a b : List Event) :
    requestsOf k (a ++ b) = requestsOf k a ++ requestsOf k b := by
  simp [requestsOf, List.filterMap_append]

/-- Events of writer `i` are no events of another writer `k`. -/
theorem events_of_other (i k : Nat) (hik : k ≠ i) :
    ∀ new : List Event, (∀ ev ∈ new, ev.writer = i) →
      errorsOf k new = [] ∧ sentBy k new = [] := by
  intro new
  induction new with
  | nil => intro _; exact ⟨rfl, rfl⟩
  | cons ev new ih =>
    intro h
    have hev : ev.writer = i := h ev (List.mem_cons_self _ _)
    obtain ⟨h1, h2⟩ := ih (fun e he => h e (List.mem_cons_of_mem _ he))
    have hne : ¬ i = k := fun h => hik h.symm
    cases ev with
    | request j input resp =>
      simp only [Event.writer] at hev; subst hev
      refine ⟨?_, ?_⟩
      · simp only [errorsOf, List.filterMap_cons, hne, if_false]; exact h1
      · simp only [sentBy, List.filterMap_cons]; exact h2
    | send j res =>
      simp only [Event.writer] at hev; subst hev
      refine ⟨?_, ?_⟩
      · simp only [errorsOf, List.filterMap_cons]; exact h1
      · simp only [sentBy, List.filterMap_cons, hne, if_false]; exact h2
    | log j line =>
      exact ⟨by simp only [errorsOf, List.filterMap_cons]; exact h1,
        by simp only [sentBy, List.filterMap_cons]; exact h2⟩

/-- A move keeps the agreement between the control point of the writer that
moves and its events. -/
theorem Trans_LocalInv (t : String) (i : Nat) (wr wr' : Writer) (new : List Event)
    (errs : List (Option String)) (sent : List writeErrorChannel)
    (ht : Trans t i wr wr' new) (h : LocalInv (some wr) errs sent) :
    LocalInv (some wr') (errs ++ errorsOf i new) (sent ++ sentBy i new) := by
  rcases ht with ⟨input, resp, rfl, rfl, rfl⟩ | ⟨res, rfl, rfl, rfl⟩ | ⟨r, resp, rfl, rfl, rfl⟩
  · obtain ⟨he, hs⟩ := h
    subst he; subst hs
    obtain ⟨out, err⟩ := resp
    have e1 : [] ++ errorsOf i [Event.request i input (out, err)] = [err] := by
      simp [errorsOf]
    have e2 : ([] : List writeErrorChannel) ++ sentBy i [Event.request i input (out, err)]
        = [] := by
      simp [sentBy]
    rw [e1, e2]
    cases err with
    | some e => cases out <;> exact ⟨rfl, rfl⟩
    | none =>
      cases out with
      | none => exact ⟨rfl, rfl⟩
      | some o =>
        cases hm : mapGet o.UnprocessedItems t with
        | none =>
          have : afterFirst t (some o, none) = .done := by simp [afterFirst, hm]
          rw [this]; exact Or.inr ⟨rfl, rfl⟩
        | some v =>
          have : afterFirst t (some o, none) = .retry o := by simp [afterFirst, hm]
          rw [this]; exact ⟨rfl, rfl⟩
  · obtain ⟨he, hs⟩ := h
    subst hs
    have e1 : errs ++ errorsOf i [Event.send i res] = errs := by simp [errorsOf]
    have e2 : ([] : List writeErrorChannel) ++ sentBy i [Event.send i res] = [res] := by
      simp [sentBy]
    rw [e1, e2]
    exact Or.inl ⟨res.Error, he, rfl⟩
  · obtain ⟨he, hs⟩ := h
    subst hs
    have h1 : (errs ++ errorsOf i ([Event.log i "Unprocessed items remain. Processing...",
        Event.request i ⟨r.UnprocessedItems⟩ resp] ++ retryErrorLog i resp.2)).head?
        = some none := by
      rw [List.head?_append, he]; rfl
    have h2 : ([] : List writeErrorChannel) ++ sentBy i
        ([Event.log i "Unprocessed items remain. Processing...",
        Event.request i ⟨r.UnprocessedItems⟩ resp] ++ retryErrorLog i resp.2) = [] := by
      rw [sentBy_append, sentBy_retryErrorLog]; simp [sentBy]
    obtain ⟨out, err⟩ := resp
    cases out with
    | none => exact ⟨h1, h2⟩
    | some o =>
      cases hm : o.UnprocessedItems with
      | none =>
        have : afterRetry (some o, err) = .done := by simp [afterRetry, hm]
        rw [this]; exact Or.inr ⟨h1, h2⟩
      | some v =>
        have : afterRetry (some o, err) = .retry o := by simp [afterRetry, hm]
        rw [this]; exact ⟨h1, h2⟩

theorem step_inv {σ : Type} (c : Client σ) (t : String) (i : Nat) (w : World σ)
    (h : WorldInv w) : WorldInv (step c t i w) := by
  rcases step_spec c t i w with heq | ⟨wr, wr', new, hwr, hws, htr, hch, _, hnew, htrans⟩
  · rw [heq]; exact h
  · obtain ⟨h1, h2⟩ := h
    refine ⟨?_, ?_⟩
    · rw [hch, htr, sentAll_append, h1]
    · intro k
      rw [hws, htr, errorsOf_append, sentBy_append]
      by_cases hik : k = i
      · subst hik
        have hlt : k < w.writers.length := by
          obtain ⟨hlt, _⟩ := List.getElem?_eq_some.1 hwr
          exact hlt
        rw [List.getElem?_set_self hlt]
        have := h2 k
        rw [hwr] at this
        exact Trans_LocalInv t k wr wr' new _ _ htrans this
      · obtain ⟨e1, e2⟩ := events_of_other i k hik new hnew
        rw [List.getElem?_set_ne (fun h => hik h.symm), e1, e2, List.append_nil,
          List.append_nil]
        exact h2 k

theorem step_length {σ : Type} (c : Client σ) (t : String) (i : Nat) (w : World σ) :
    (step c t i w).writers.length = w.writers.length := by
  rcases step_spec c t i w with heq | ⟨wr, wr', new, _, hws, _, _, _, _, _⟩
  · rw [heq]
  · rw [hws, List.length_set]

theorem run_inv {σ : Type} (c : Client σ) (t : String) :
    ∀ (sched : List Nat) (w : World σ), WorldInv w → WorldInv (run c t sched w) := by
  intro sched
  induction sched with
  | nil => intro w h; exact h
  | cons i sched ih => intro w h; exact ih _ (step_inv c t i w h)

theorem run_length {σ : Type} (c : Client σ) (t : String) :
    ∀ (sched : List Nat) (w : World σ),
      (run c t sched w).writers.length = w.writers.length := by
  intro sched
  induction sched with
  | nil => intro w; rfl
  | cons i sched ih => intro w; exact (ih _).trans (step_length c t i w)

theorem init_inv {σ : Type} (s0 : σ) (inputs : List BatchWriteItemInput) :
    WorldInv (World.init s0 inputs) := by
  refine ⟨rfl, ?_⟩
  intro k
  show LocalInv (inputs.map Writer.start)[k]? [] []
  rw [List.getElem?_map]
  cases inputs[k]? with
  | none => exact ⟨rfl, rfl⟩
  | some b => exact ⟨rfl, rfl⟩

/-! ## Orchestrator -/

theorem mem_send_iff (i : Nat) (res : writeErrorChannel) (tr : List Event) :
    Event.send i res ∈ tr ↔ res ∈ sentBy i tr := by
  induction tr with
  | nil => simp [sentBy]
  | cons ev tr ih =>
    have hcons : sentBy i (ev :: tr) = sentBy i [ev] ++ sentBy i tr :=
      sentBy_append i [ev] tr
    rw [List.mem_cons, hcons, List.mem_append, ih]
    cases ev with
    | request j input resp => simp [sentBy]
    | log j line => simp [sentBy]
    | send j r =>
      by_cases hj : j = i
      · subst hj
        simp [sentBy]
      · have : ¬ i = j := fun h => hj h.symm
        simp [sentBy, hj, this]

theorem mem_sentAll_iff (res : writeErrorChannel) (tr : List Event) :
    res ∈ sentAll tr ↔ ∃ i, Event.send i res ∈ tr := by
  induction tr with
  | nil => simp [sentAll]
  | cons ev tr ih =>
    have hcons : sentAll (ev :: tr) = sentAll [ev] ++ sentAll tr := sentAll_append [ev] tr
    rw [hcons, List.mem_append, ih]
    cases ev with
    | request j input resp => simp [sentAll]
    | log j line => simp [sentAll]
    | send j r =>
      constructor
      · rintro (h | ⟨i, h⟩)
        · simp [sentAll] at h
          subst h
          exact ⟨j, List.mem_cons_self _ _⟩
        · exact ⟨i, List.mem_cons_of_mem _ h⟩
      · rintro ⟨i, h⟩
        rcases List.mem_cons.1 h with h | h
        · injection h with h1 h2
          subst h2
          left; simp [sentAll]
        · exact Or.inr ⟨i, h⟩

theorem not_panicked_of_all_done (ws : List Writer) (h : ws.all Writer.isDone = true) :
    ws.any Writer.isPanicked = false := by
  induction ws with
  | nil => rfl
  | cons wr ws ih =>
    simp only [List.all_cons, Bool.and_eq_true] at h
    simp only [List.any_cons, ih h.2, Bool.or_false]
    cases wr <;> simp_all [Writer.isDone, Writer.isPanicked]

theorem calledDone_of_all_done (ws : List Writer) (h : ws.all Writer.isDone = true) :
    ws.all Writer.calledDone = true := by
  induction ws with
  | nil => rfl
  | cons wr ws ih =>
    simp only [List.all_cons, Bool.and_eq_true] at h
    simp only [List.all_cons, ih h.2, Bool.and_true]
    cases wr <;> simp_all [Writer.isDone, Writer.calledDone]

theorem done_of_all_done (ws : List Writer) (h : ws.all Writer.isDone = true) (k : Nat)
    (wr : Writer) (hk : ws[k]? = some wr) : wr = .done := by
  have hmem : wr ∈ ws := List.getElem?_mem hk
  have := List.all_eq_true.1 h wr hmem
  cases wr <;> simp_all [Writer.isDone]

/-- C6: under every schedule after which all writers have returned,
`orchestrateWriteItems` returns the error "error writing objects" if and only
if some writer delivered a message to the result channel, and nil if and only
if none did; writer `i` delivered the message `res` exactly when it exists and
the store answered its first request with the error `res.Error`; and for no
batch at all it returns nil with no request made and the store untouched. -/
theorem orchestrateWriteItems_result {σ : Type} (c : Client σ) (s0 : σ)
    (inputs : List BatchWriteItemInput) (t : String) (sched : List Nat)
    (hdone : (run c t sched (World.init s0 inputs)).writers.all Writer.isDone = true) :
    ((orchestrateWriteItems c s0 inputs t sched).1 = .returned (some "error writing objects")
      ↔ ∃ i res, Event.send i res ∈ (run c t sched (World.init s0 inputs)).trace) ∧
    ((orchestrateWriteItems c s0 inputs t sched).1 = .returned none
      ↔ ¬ ∃ i res, Event.send i res ∈ (run c t sched (World.init s0 inputs)).trace) ∧
    (∀ i res, Event.send i res ∈ (run c t sched (World.init s0 inputs)).trace ↔
      i < inputs.length ∧
      (errorsOf i (run c t sched (World.init s0 inputs)).trace).head?
        = some (some res.Error)) ∧
    (inputs = [] →
      (orchestrateWriteItems c s0 inputs t sched).1 = .returned none ∧
      (run c t sched (World.init s0 inputs)).trace = [] ∧
      (run c t sched (World.init s0 inputs)).store = s0) := by
  obtain ⟨hch, hloc⟩ := run_inv c t sched _ (init_inv s0 inputs)
  have hlen : (run c t sched (World.init s0 inputs)).writers.length = inputs.length := by
    rw [run_length]; simp [World.init]
  have hnp := not_panicked_of_all_done _ hdone
  -- the messages of a writer against the first response it got
  have hsend : ∀ i res, Event.send i res ∈ (run c t sched (World.init s0 inputs)).trace ↔
      i < inputs.length ∧
      (errorsOf i (run c t sched (World.init s0 inputs)).trace).head?
        = some (some res.Error) := by
    intro i res
    rw [mem_send_iff]
    have hi := hloc i
    cases hw : (run c t sched (World.init s0 inputs)).writers[i]? with
    | none =>
      rw [hw] at hi
      obtain ⟨he, hs⟩ := hi
      rw [hs, he]
      have : ¬ i < inputs.length := by
        rw [← hlen]
        intro hlt
        rw [List.getElem?_eq_getElem hlt] at hw
        exact Option.noConfusion hw
      simp [this]
    | some wr =>
      have hd := done_of_all_done _ hdone i wr hw
      subst hd
      rw [hw] at hi
      have hlt : i < inputs.length := by
        rw [← hlen]
        exact (List.getElem?_eq_some.1 hw).1
      rcases hi with ⟨e, he, hs⟩ | ⟨he, hs⟩
      · rw [hs, he]
        constructor
        · intro h
          simp at h
          subst h
          exact ⟨hlt, rfl⟩
        · rintro ⟨_, h⟩
          simp at h
          cases res
          simp_all
      · rw [hs, he]
        simp
  have hout : (orchestrateWriteItems c s0 inputs t sched).1
      = if (run c t sched (World.init s0 inputs)).writeChan.length > 0
        then .returned (some "error writing objects") else .returned none := by
    unfold orchestrateWriteItems afterWait
    simp only [hnp, calledDone_of_all_done _ hdone, if_true, Bool.false_eq_true, if_false]
    split <;> rfl
  have hex : (run c t sched (World.init s0 inputs)).writeChan.length > 0 ↔
      ∃ i res, Event.send i res ∈ (run c t sched (World.init s0 inputs)).trace := by
    rw [hch]
    constructor
    · intro h
      obtain ⟨res, hres⟩ := List.exists_mem_of_length_pos h
      obtain ⟨i, hi⟩ := (mem_sentAll_iff res _).1 hres
      exact ⟨i, res, hi⟩
    · rintro ⟨i, res, h⟩
      exact List.length_pos_of_mem ((mem_sentAll_iff res _).2 ⟨i, h⟩)
  refine ⟨?_, ?_, hsend, ?_⟩
  · rw [hout, ← hex]
    split <;> simp_all
  · rw [hout, ← hex]
    split <;> simp_all
  · intro hnil
    subst hnil
    have hrun : ∀ (sched : List Nat) (w : World σ), w.writers = [] →
        run c t sched w = w := by
      intro sched
      induction sched with
      | nil => intro w _; rfl
      | cons i sched ih =>
        intro w hw
        have : step c t i w = w := by
          unfold step
          simp [hw]
        show run c t sched (step c t i w) = w
        rw [this]
        exact ih w hw
    have hW := hrun sched (World.init s0 []) rfl
    rw [hout, hW]
    exact ⟨rfl, rfl, rfl⟩

theorem orchestrateWriteItems_result_witness :
    ((run scriptedClient "t" [1, 0, 1] (World.init [(none, some "boom")]
        [mkBatch "t" [sampleRequest], mkBatch "t" []])).writers.all Writer.isDone = true) ∧
    (((orchestrateWriteItems scriptedClient [(none, some "boom")]
        [mkBatch "t" [sampleRequest], mkBatch "t" []] "t" [1, 0, 1]).1
        = .returned (some "error writing objects")
      ↔ ∃ i res, Event.send i res ∈ (run scriptedClient "t" [1, 0, 1]
          (World.init [(none, some "boom")]
            [mkBatch "t" [sampleRequest], mkBatch "t" []])).trace) ∧
    ((orchestrateWriteItems scriptedClient [(none, some "boom")]
        [mkBatch "t" [sampleRequest], mkBatch "t" []] "t" [1, 0, 1]).1 = .returned none
      ↔ ¬ ∃ i res, Event.send i res ∈ (run scriptedClient "t" [1, 0, 1]
          (World.init [(none, some "boom")]
            [mkBatch "t" [sampleRequest], mkBatch "t" []])).trace) ∧
    (∀ i res, Event.send i res ∈ (run scriptedClient "t" [1, 0, 1]
          (World.init [(none, some "boom")]
            [mkBatch "t" [sampleRequest], mkBatch "t" []])).trace ↔
      i < [mkBatch "t" [sampleRequest], mkBatch "t" []].length ∧
      (errorsOf i (run scriptedClient "t" [1, 0, 1]
          (World.init [(none, some "boom")]
            [mkBatch "t" [sampleRequest], mkBatch "t" []])).trace).head?
        = some (some res.Error)) ∧
    ([mkBatch "t" [sampleRequest], mkBatch "t" []] = [] →
      (orchestrateWriteItems scriptedClient [(none, some "boom")]
        [mkBatch "t" [sampleRequest], mkBatch "t" []] "t" [1, 0, 1]).1 = .returned none ∧
      (run scriptedClient "t" [1, 0, 1] (World.init [(none, some "boom")]
        [mkBatch "t" [sampleRequest], mkBatch "t" []])).trace = [] ∧
      (run scriptedClient "t" [1, 0, 1] (World.init [(none, some "boom")]
        [mkBatch "t" [sampleRequest], mkBatch "t" []])).store = [(none, some "boom")])) :=
  ⟨by decide,
    orchestrateWriteItems_result scriptedClient [(none, some "boom")]
      [mkBatch "t" [sampleRequest], mkBatch "t" []] "t" [1, 0, 1] (by decide)⟩

/-! ## Orchestrator: the channel never blocks -/

theorem running_set (ws : List Writer) :
    ∀ (i : Nat) (wr wr' : Writer), ws[i]? = some wr →
      running (ws.set i wr') + (if wr.isDone then 0 else 1)
        = running ws + (if wr'.isDone then 0 else 1) := by
  induction ws with
  | nil => intro i wr wr' h; simp at h
  | cons a ws ih =>
    intro i wr wr' h
    cases i with
    | zero =>
      simp only [List.getElem?_cons_zero, Option.some.injEq] at h
      subst h
      simp only [List.set_cons_zero, running, List.countP_cons]
      cases h1 : a.isDone <;> cases h2 : wr'.isDone <;> simp
    | succ i =>
      simp only [List.getElem?_cons_succ] at h
      have := ih i wr wr' h
      simp only [List.set_cons_succ, running, List.countP_cons] at this ⊢
      omega

theorem Trans_running (t : String) (i : Nat) (wr wr' : Writer) (new : List Event)
    (h : Trans t i wr wr' new) :
    wr.isDone = false ∧ (sentAll new).length + (if wr'.isDone then 0 else 1) ≤ 1 := by
  rcases h with ⟨input, resp, rfl, rfl, rfl⟩ | ⟨res, rfl, rfl, rfl⟩ | ⟨r, resp, rfl, rfl, rfl⟩
  · refine ⟨rfl, ?_⟩
    have : sentAll [Event.request i input resp] = [] := rfl
    rw [this]
    split <;> simp
  · exact ⟨rfl, by simp [sentAll, Writer.isDone]⟩
  · refine ⟨rfl, ?_⟩
    rw [sentAll_append, sentAll_retryErrorLog]
    have : sentAll [Event.log i "Unprocessed items remain. Processing...",
        Event.request i ⟨r.UnprocessedItems⟩ resp] = [] := rfl
    rw [this]
    split <;> simp

/-- In every run of the orchestrator the messages in the channel and the
writers still running together never exceed the capacity of the channel. -/
theorem run_room {σ : Type} (c : Client σ) (t : String) :
    ∀ (sched : List Nat) (w : World σ),
      w.writeChan.length + running w.writers ≤ w.capacity →
      (run c t sched w).writeChan.length + running (run c t sched w).writers
        ≤ (run c t sched w).capacity := by
  intro sched
  induction sched with
  | nil => intro w h; exact h
  | cons i sched ih =>
    intro w h
    apply ih
    rcases step_spec c t i w with heq | ⟨wr, wr', new, hwr, hws, _, hch, hcap, _, htrans⟩
    · rw [heq]; exact h
    · have h1 := running_set w.writers i wr wr' hwr
      obtain ⟨h2, h3⟩ := Trans_running t i wr wr' new htrans
      rw [h2] at h1
      simp only [Bool.false_eq_true, if_false] at h1
      rw [hws, hch, hcap, List.length_append]
      omega

/-- A writer of the orchestrator that is about to send finds room in the
channel: its next move delivers the message and returns. -/
theorem send_never_blocks {σ : Type} (c : Client σ) (s0 : σ)
    (inputs : List BatchWriteItemInput) (t : String) (sched : List Nat) (i : Nat)
    (res : writeErrorChannel)
    (h : (run c t sched (World.init s0 inputs)).writers[i]? = some (.sending res)) :
    (run c t sched (World.init s0 inputs)).writeChan.length
      < (run c t sched (World.init s0 inputs)).capacity := by
  have hroom := run_room c t sched (World.init s0 inputs) (by
    show 0 + running (inputs.map Writer.start) ≤ inputs.length
    have : running (inputs.map Writer.start) ≤ (inputs.map Writer.start).length :=
      List.countP_le_length _
    simpa using this)
  have hpos : 0 < running (run c t sched (World.init s0 inputs)).writers := by
    unfold running
    rw [List.countP_pos_iff]
    exact ⟨_, List.getElem?_mem h, rfl⟩
  omega

/-! ## Writer -/

theorem step_of_all_done {σ : Type} (c : Client σ) (t : String) (i : Nat) (w : World σ)
    (h : w.writers.all Writer.isDone = true) : step c t i w = w := by
  unfold step
  cases hw : w.writers[i]? with
  | none => rfl
  | some wr =>
    have := done_of_all_done _ h i wr hw
    subst this
    rfl

theorem run_of_all_done {σ : Type} (c : Client σ) (t : String) :
    ∀ (sched : List Nat) (w : World σ), w.writers.all Writer.isDone = true →
      run c t sched w = w := by
  intro sched
  induction sched with
  | nil => intro w _; rfl
  | cons i sched ih =>
    intro w h
    show run c t sched (step c t i w) = w
    rw [step_of_all_done c t i w h]
    exact ih w h

/-- C7: when the store answers the first request with an error `e`, a writer
given at least two moves on a channel with room ends returned, having made
exactly one request (its input), having delivered exactly one message, which
carries `e` and is the one added to the channel. -/
theorem writeItems_first_error {σ : Type} (c : Client σ) (t : String)
    (input : BatchWriteItemInput) (s0 s1 : σ) (resp : Option BatchWriteItemOutput)
    (e : String) (ch : List writeErrorChannel) (capacity fuel : Nat)
    (h : c.BatchWriteItem s0 input = (s1, (resp, some e)))
    (hcap : ch.length < capacity) (hf : 2 ≤ fuel) :
    (writeItems c t input s0 ch capacity fuel).writers = [.done] ∧
    requestsOf 0 (writeItems c t input s0 ch capacity fuel).trace = [input] ∧
    sentBy 0 (writeItems c t input s0 ch capacity fuel).trace = [⟨e⟩] ∧
    (writeItems c t input s0 ch capacity fuel).writeChan = ch ++ [⟨e⟩] ∧
    (writeItems c t input s0 ch capacity fuel).store = s1 := by
  obtain ⟨n, rfl⟩ : ∃ n, fuel = n + 2 := ⟨fuel - 2, by omega⟩
  have h1 : step c t 0 (⟨s0, [.start input], ch, capacity, []⟩ : World σ)
      = ⟨s1, [.sending ⟨e⟩], ch, capacity, [.request 0 input (resp, some e)]⟩ := by
    simp [step, Writer.isPanicked, h, afterFirst]
  have h2 : step c t 0
      (⟨s1, [.sending ⟨e⟩], ch, capacity, [.request 0 input (resp, some e)]⟩ : World σ)
      = ⟨s1, [.done], ch ++ [⟨e⟩], capacity,
          [.request 0 input (resp, some e), .send 0 ⟨e⟩]⟩ := by
    simp [step, Writer.isPanicked, hcap]
  have hrun : writeItems c t input s0 ch capacity (n + 2)
      = ⟨s1, [.done], ch ++ [⟨e⟩], capacity,
          [.request 0 input (resp, some e), .send 0 ⟨e⟩]⟩ := by
    unfold writeItems
    rw [List.replicate_succ, List.replicate_succ]
    show run c t (List.replicate n 0) (step c t 0 (step c t 0 _)) = _
    rw [h1, h2]
    exact run_of_all_done c t _ _ rfl
  rw [hrun]
  exact ⟨rfl, by simp [requestsOf], by simp [sentBy], rfl, rfl⟩

theorem writeItems_first_error_witness :
    (scriptedClient.BatchWriteItem [(none, some "boom")] (mkBatch "t" [sampleRequest])
      = ([], (none, some "boom"))) ∧ ([] : List writeErrorChannel).length < 1 ∧ 2 ≤ 2 ∧
    ((writeItems scriptedClient "t" (mkBatch "t" [sampleRequest]) [(none, some "boom")]
        [] 1 2).writers = [.done] ∧
    requestsOf 0 (writeItems scriptedClient "t" (mkBatch "t" [sampleRequest])
        [(none, some "boom")] [] 1 2).trace = [mkBatch "t" [sampleRequest]] ∧
    sentBy 0 (writeItems scriptedClient "t" (mkBatch "t" [sampleRequest])
        [(none, some "boom")] [] 1 2).trace = [⟨"boom"⟩] ∧
    (writeItems scriptedClient "t" (mkBatch "t" [sampleRequest]) [(none, some "boom")]
        [] 1 2).writeChan = [] ++ [⟨"boom"⟩] ∧
    (writeItems scriptedClient "t" (mkBatch "t" [sampleRequest]) [(none, some "boom")]
        [] 1 2).store = []) :=
  ⟨rfl, by decide, by decide,
    writeItems_first_error scriptedClient "t" (mkBatch "t" [sampleRequest])
      [(none, some "boom")] [] none "boom" [] 1 2 rfl (by decide) (by decide)⟩

/-- C8, evaluated on a store that leaves one item unprocessed, then answers
with an allocated map that has no entry, then with the nil map: after the
second response (the first that reports nothing unprocessed) the writer is
still in its loop, and it returns only after a third request, which carries the
empty map. -/
theorem writeItems_retries_on_empty_map :
    (writeItems scriptedClient "t" (mkBatch "t" [sampleRequest]) emptyMapScript [] 1
      2).writers = [.retry ⟨some []⟩] ∧
    (writeItems scriptedClient "t" (mkBatch "t" [sampleRequest]) emptyMapScript [] 1
      3).writers = [.done] ∧
    requestsOf 0 (writeItems scriptedClient "t" (mkBatch "t" [sampleRequest]) emptyMapScript
      [] 1 3).trace
      = [mkBatch "t" [sampleRequest], ⟨some [("t", [sampleRequest])]⟩, ⟨some []⟩] := by
  decide

/-- C10, evaluated on a store that leaves one item unprocessed and then fails
the retry with a nil output and an error: the request error ends the loop, the
writer stopping in a panic at the dereference of the response after two
requests; it makes no further request however many moves it is given, and
nothing is delivered. -/
theorem writeItems_panics_on_retry_error :
    (writeItems scriptedClient "t" (mkBatch "t" [sampleRequest]) retryErrorScript [] 1
      2).writers = [.panicked] ∧
    (requestsOf 0 (writeItems scriptedClient "t" (mkBatch "t" [sampleRequest])
      retryErrorScript [] 1 2).trace).length = 2 ∧
    errorsOf 0 (writeItems scriptedClient "t" (mkBatch "t" [sampleRequest])
      retryErrorScript [] 1 2).trace = [none, some "throttled"] ∧
    (writeItems scriptedClient "t" (mkBatch "t" [sampleRequest]) retryErrorScript [] 1
      2).writeChan = [] ∧
    (writeItems scriptedClient "t" (mkBatch "t" [sampleRequest]) retryErrorScript [] 1
      6).writers = [.panicked] ∧
    (requestsOf 0 (writeItems scriptedClient "t" (mkBatch "t" [sampleRequest])
      retryErrorScript [] 1 6).trace).length = 2 ∧
    (writeItems scriptedClient "t" (mkBatch "t" [sampleRequest]) retryErrorScript [] 1
      6).writeChan = [] := by
  decide

/-- After a panic of the first of two writers: while the second has not moved
`wg.Wait()` blocks; the second writer still moves, and once it has returned
(here after delivering an error) every writer has called `wg.Done()`, so that
the call returns the summary error if it runs before the process exits. With
the panicking writer alone, the call returns nil if it runs before the exit. -/
theorem orchestrateWriteItems_after_panic :
    (orchestrateWriteItems scriptedClient (retryErrorScript ++ [(none, some "boom")])
      [mkBatch "t" [sampleRequest], mkBatch "t" []] "t" [0, 0]).1 = .panic none ∧
    (orchestrateWriteItems scriptedClient (retryErrorScript ++ [(none, some "boom")])
      [mkBatch "t" [sampleRequest], mkBatch "t" []] "t" [0, 0, 1, 1]).1
      = .panic (some (some "error writing objects")) ∧
    (orchestrateWriteItems scriptedClient retryErrorScript [mkBatch "t" [sampleRequest]] "t"
      [0, 0]).1 = .panic (some none) := by
  decide

theorem run_done_world {σ : Type} (c : Client σ) (t : String) (sched : List Nat) (s : σ)
    (ch : List writeErrorChannel) (capacity : Nat) (tr : List Event) :
    run c t sched (⟨s, [.done], ch, capacity, tr⟩ : World σ)
      = ⟨s, [.done], ch, capacity, tr⟩ :=
  run_of_all_done c t sched _ rfl

/-- In its loop, on a store whose next responses are the allocated maps `ms`
and then the nil map, all without error, a writer returns after exactly
`ms.length + 1` further requests: the unprocessed map it holds, then each map
of `ms`. -/
theorem retry_converges_on_nil (t : String) (ch : List writeErrorChannel) (capacity : Nat) :
    ∀ (ms : List (List (String × List WriteRequest))) (r : BatchWriteItemOutput)
      (tr : List Event) (n : Nat), ms.length + 1 ≤ n →
      (run scriptedClient t (List.replicate n 0)
        (⟨ms.map (fun m => okResponse (some m)) ++ [okResponse none], [.retry r], ch,
          capacity, tr⟩ : World (List Response))).writers = [.done] ∧
      requestsOf 0 (run scriptedClient t (List.replicate n 0)
        (⟨ms.map (fun m => okResponse (some m)) ++ [okResponse none], [.retry r], ch,
          capacity, tr⟩ : World (List Response))).trace
        = requestsOf 0 tr ++ (⟨r.UnprocessedItems⟩ :: ms.map (fun m => ⟨some m⟩)) ∧
      (run scriptedClient t (List.replicate n 0)
        (⟨ms.map (fun m => okResponse (some m)) ++ [okResponse none], [.retry r], ch,
          capacity, tr⟩ : World (List Response))).writeChan = ch := by
  intro ms
  induction ms with
  | nil =>
    intro r tr n hn
    obtain ⟨n, rfl⟩ : ∃ k, n = k + 1 := ⟨n - 1, by simp at hn; omega⟩
    have h1 : step scriptedClient t 0
        (⟨[okResponse none], [.retry r], ch, capacity, tr⟩ : World (List Response))
        = ⟨[], [.done], ch, capacity,
            tr ++ [.log 0 "Unprocessed items remain. Processing...",
              .request 0 ⟨r.UnprocessedItems⟩ (okResponse none)]⟩ := by
      simp [step, Writer.isPanicked, scriptedClient, okResponse, afterRetry, retryErrorLog]
    rw [List.replicate_succ]
    show (run scriptedClient t (List.replicate n 0) (step scriptedClient t 0 _)).writers = _ ∧
      requestsOf 0 (run scriptedClient t (List.replicate n 0)
        (step scriptedClient t 0 _)).trace = _ ∧
      (run scriptedClient t (List.replicate n 0) (step scriptedClient t 0 _)).writeChan = _
    simp only [List.map_nil, List.nil_append]
    rw [h1, run_done_world]
    exact ⟨rfl, by simp [requestsOf, List.filterMap_append], rfl⟩
  | cons m ms ih =>
    intro r tr n hn
    obtain ⟨n, rfl⟩ : ∃ k, n = k + 1 := ⟨n - 1, by simp at hn; omega⟩
    have h1 : step scriptedClient t 0
        (⟨okResponse (some m) :: (ms.map (fun m => okResponse (some m)) ++ [okResponse none]),
          [.retry r], ch, capacity, tr⟩ : World (List Response))
        = ⟨ms.map (fun m => okResponse (some m)) ++ [okResponse none], [.retry ⟨some m⟩],
            ch, capacity,
            tr ++ [.log 0 "Unprocessed items remain. Processing...",
              .request 0 ⟨r.UnprocessedItems⟩ (okResponse (some m))]⟩ := by
      simp [step, Writer.isPanicked, scriptedClient, okResponse, afterRetry, retryErrorLog]
    rw [List.replicate_succ]
    show (run scriptedClient t (List.replicate n 0) (step scriptedClient t 0 _)).writers = _ ∧
      requestsOf 0 (run scriptedClient t (List.replicate n 0)
        (step scriptedClient t 0 _)).trace = _ ∧
      (run scriptedClient t (List.replicate n 0) (step scriptedClient t 0 _)).writeChan = _
    simp only [List.map_cons, List.cons_append]
    rw [h1]
    obtain ⟨i1, i2, i3⟩ := ih ⟨some m⟩ _ n (by simp at hn; omega)
    refine ⟨i1, ?_, i3⟩
    rw [i2]
    simp [requestsOf, List.filterMap_append]

/-- On a store that answers without error, first with allocated maps `ms` (the
first one with an entry for the table), then with the nil map, a writer given
enough moves returns after exactly `ms.length + 1` requests: its input, then
the unprocessed map of each response but the last; it delivers nothing. -/
theorem writeItems_converges_on_nil (t : String) (input : BatchWriteItemInput)
    (ms : List (List (String × List WriteRequest))) (ch : List writeErrorChannel)
    (capacity fuel : Nat)
    (hkey : ∀ m, ms.head? = some m → (m.lookup t).isSome = true)
    (hf : ms.length + 1 ≤ fuel) :
    (writeItems scriptedClient t input
      (ms.map (fun m => okResponse (some m)) ++ [okResponse none]) ch capacity fuel).writers
      = [.done] ∧
    requestsOf 0 (writeItems scriptedClient t input
      (ms.map (fun m => okResponse (some m)) ++ [okResponse none]) ch capacity fuel).trace
      = input :: ms.map (fun m => ⟨some m⟩) ∧
    (writeItems scriptedClient t input
      (ms.map (fun m => okResponse (some m)) ++ [okResponse none]) ch capacity fuel).writeChan
      = ch := by
  obtain ⟨n, rfl⟩ : ∃ k, fuel = k + 1 := ⟨fuel - 1, by omega⟩
  unfold writeItems
  rw [List.replicate_succ]
  show (run scriptedClient t (List.replicate n 0) (step scriptedClient t 0 _)).writers = _ ∧
    requestsOf 0 (run scriptedClient t (List.replicate n 0)
      (step scriptedClient t 0 _)).trace = _ ∧
    (run scriptedClient t (List.replicate n 0) (step scriptedClient t 0 _)).writeChan = _
  cases ms with
  | nil =>
    have h1 : step scriptedClient t 0
        (⟨[okResponse none], [.start input], ch, capacity, []⟩ : World (List Response))
        = ⟨[], [.done], ch, capacity, [.request 0 input (okResponse none)]⟩ := by
      simp [step, Writer.isPanicked, scriptedClient, okResponse, afterFirst, mapGet]
    simp only [List.map_nil, List.nil_append]
    rw [h1, run_done_world]
    exact ⟨rfl, by simp [requestsOf], rfl⟩
  | cons m ms =>
    have hk := hkey m rfl
    obtain ⟨v, hv⟩ := Option.isSome_iff_exists.1 hk
    have h1 : step scriptedClient t 0
        (⟨okResponse (some m) :: (ms.map (fun m => okResponse (some m)) ++ [okResponse none]),
          [.start input], ch, capacity, []⟩ : World (List Response))
        = ⟨ms.map (fun m => okResponse (some m)) ++ [okResponse none], [.retry ⟨some m⟩],
            ch, capacity, [.request 0 input (okResponse (some m))]⟩ := by
      simp [step, Writer.isPanicked, scriptedClient, okResponse, afterFirst, mapGet, hv]
    simp only [List.map_cons, List.cons_append]
    rw [h1]
    obtain ⟨i1, i2, i3⟩ := retry_converges_on_nil t ch capacity ms ⟨some m⟩
      [.request 0 input (okResponse (some m))] n (by simp at hf; omega)
    refine ⟨i1, ?_, i3⟩
    rw [i2]
    simp [requestsOf]

/-- In every run of the orchestrator, a writer whose first request was answered
without error has delivered nothing to the result channel, whatever its later
requests were answered. -/
theorem no_message_after_first_success {σ : Type} (c : Client σ) (s0 : σ)
    (inputs : List BatchWriteItemInput) (t : String) (sched : List Nat) (i : Nat)
    (h : (errorsOf i (run c t sched (World.init s0 inputs)).trace).head? = some none) :
    sentBy i (run c t sched (World.init s0 inputs)).trace = [] := by
  obtain ⟨_, hloc⟩ := run_inv c t sched _ (init_inv s0 inputs)
  have hi := hloc i
  cases hw : (run c t sched (World.init s0 inputs)).writers[i]? with
  | none => rw [hw] at hi; exact hi.2
  | some wr =>
    rw [hw] at hi
    cases wr with
    | start input => exact hi.2
    | sending res => exact hi.2
    | retry r => exact hi.2
    | panicked => exact hi.2
    | done =>
      rcases hi with ⟨e, he, _⟩ | ⟨_, hs⟩
      · rw [he] at h; simp at h
      · exact hs

/-! ## The scenario of 53 records -/

/-- C9, evaluated: for 53 records the chunker returns three batches of sizes 24,
25 and 4, not 25, 25 and 3. On these batches, with a store that leaves 4 items
of the second batch unprocessed on its first write and accepts everything else,
`orchestrateWriteItems` returns nil, the second writer having made 2 requests
and the others 1 each. -/
theorem scenario_53_records :
    (generateBatchWriteItemInputs MarshalMap (sampleItems 53) "t").2 = none ∧
    batches53.map (fun b => (b.requests "t").length) = [24, 25, 4] ∧
    (orchestrateWriteItems (partialClient "t" (batches53.getD 1 (newInput "t")) 4) ()
      batches53 "t" [0, 1, 2, 1]).1 = .returned none ∧
    (requestsOf 1 (orchestrateWriteItems (partialClient "t" (batches53.getD 1 (newInput "t")) 4)
      () batches53 "t" [0, 1, 2, 1]).2.trace).map (fun b => (b.requests "t").length)
      = [25, 4] ∧
    (requestsOf 0 (orchestrateWriteItems (partialClient "t" (batches53.getD 1 (newInput "t")) 4)
      () batches53 "t" [0, 1, 2, 1]).2.trace).length = 1 ∧
    (requestsOf 2 (orchestrateWriteItems (partialClient "t" (batches53.getD 1 (newInput "t")) 4)
      () batches53 "t" [0, 1, 2, 1]).2.trace).length = 1 := by
  set_option maxRecDepth 1000000 in decide

end Maido
